import Mathlib

/-!
Verification of the polyline core of the cavalier_contours repository.

The Rust source is shallowly embedded: the polyline data model and the
operations under `src/cavalier_contours/src/polyline/` are translated to Lean
definitions.  The repository's numeric scalar trait (`Real`) together with the
`core::math` helpers (`Vector2`, fuzzy comparison, segment geometry) is not
part of the provided sources, so those few leaf helpers are modelled from the
specification document; every such definition is marked with a doc comment
starting with `Modelled from the spec:`.  Structural code that does not need
transcendental functions is embedded generically over a linear ordered field
(the Rust code is generic over its `Real` trait); geometric code that needs
`sqrt`, `atan`, `pi` is embedded at `ℝ`.
-/

set_option autoImplicit false

namespace CavalierContours

variable {α : Type} [LinearOrderedField α]

/-- Modelled from the spec: a 2D point/vector with the operations used by the
polyline core (dot, length, length squared, subtraction, scaling, fuzzy
equality).  The `core::math::Vector2` type is not among the provided sources. -/
structure Vector2 (α : Type) where
  x : α
  y : α
deriving DecidableEq

/-- Vertex of a polyline: position plus bulge (from `polyline` module,
`PlineVertex`, declared outside the provided sources; the spec defines it as
`(x, y, bulge)`). -/
structure PlineVertex (α : Type) where
  x : α
  y : α
  bulge : α
deriving DecidableEq

/-- Position of a vertex (`PlineVertex::pos`). -/
def PlineVertex.pos (v : PlineVertex α) : Vector2 α := ⟨v.x, v.y⟩

/-- Copy of a vertex with the bulge replaced (`PlineVertex::with_bulge`). -/
def PlineVertex.with_bulge (v : PlineVertex α) (b : α) : PlineVertex α :=
  ⟨v.x, v.y, b⟩

/-- Vertex from a position and a bulge (`PlineVertex::from_vector2`). -/
def PlineVertex.from_vector2 (p : Vector2 α) (b : α) : PlineVertex α :=
  ⟨p.x, p.y, b⟩

/-- Default vertex used to totalize the panicking indexed accesses of the Rust
code (`at`, `Index<usize>`); theorems only rely on it at indexes the Rust code
would access successfully. -/
def vdefault : PlineVertex α := ⟨0, 0, 0⟩

/-- Modelled from the spec: the default fuzzy comparison epsilon, `positional
1e-5` (`core::traits::FuzzyEq::fuzzy_epsilon`, not among the provided
sources). -/
def fuzzyEpsilon : α := 1 / 100000

/-- Modelled from the spec: scalar fuzzy equality with explicit epsilon
(`core::traits::FuzzyEq::fuzzy_eq_eps`, not among the provided sources). -/
def fuzzyEqEps (a b eps : α) : Prop := |a - b| < eps

instance (a b eps : α) : Decidable (fuzzyEqEps a b eps) :=
  inferInstanceAs (Decidable (|a - b| < eps))

/-- Modelled from the spec: fuzzy equality of 2D points, componentwise with
explicit epsilon (`Vector2::fuzzy_eq_eps`, not among the provided sources). -/
def Vector2.fuzzy_eq_eps (a b : Vector2 α) (eps : α) : Prop :=
  fuzzyEqEps a.x b.x eps ∧ fuzzyEqEps a.y b.y eps

instance (a b : Vector2 α) (eps : α) : Decidable (a.fuzzy_eq_eps b eps) :=
  inferInstanceAs (Decidable (_ ∧ _))

/-- Modelled from the spec: fuzzy equality of vertexes (componentwise on x, y
and bulge; `PlineVertex::fuzzy_eq_eps`, not among the provided sources). -/
def PlineVertex.fuzzy_eq_eps (a b : PlineVertex α) (eps : α) : Prop :=
  fuzzyEqEps a.x b.x eps ∧ fuzzyEqEps a.y b.y eps ∧ fuzzyEqEps a.bulge b.bulge eps

instance (a b : PlineVertex α) (eps : α) : Decidable (a.fuzzy_eq_eps b eps) :=
  inferInstanceAs (Decidable (_ ∧ _ ∧ _))

/-- Modelled from the spec: `bulge_is_zero(v)` is `|v.bulge| < fuzzy_eps`
(spec section 4.1; the `PlineVertex` methods are not among the provided
sources). -/
def PlineVertex.bulge_is_zero (v : PlineVertex α) : Prop := |v.bulge| < fuzzyEpsilon

instance (v : PlineVertex α) : Decidable v.bulge_is_zero :=
  inferInstanceAs (Decidable (|v.bulge| < fuzzyEpsilon))

/-- Modelled from the spec: positive bulge means a counter-clockwise arc
(`PlineVertex::bulge_is_pos`). -/
def PlineVertex.bulge_is_pos (v : PlineVertex α) : Prop := 0 < v.bulge

instance (v : PlineVertex α) : Decidable v.bulge_is_pos :=
  inferInstanceAs (Decidable (0 < v.bulge))

/-- Modelled from the spec: negative bulge means a clockwise arc
(`PlineVertex::bulge_is_neg`). -/
def PlineVertex.bulge_is_neg (v : PlineVertex α) : Prop := v.bulge < 0

instance (v : PlineVertex α) : Decidable v.bulge_is_neg :=
  inferInstanceAs (Decidable (v.bulge < 0))

/-- Polyline: vertex buffer plus closed flag (`pline.rs`, struct
`Polyline<T>`). -/
structure Polyline (α : Type) where
  vertex_data : List (PlineVertex α)
  is_closed : Bool
deriving DecidableEq

/-- Number of vertexes (`PolylineRef::vertex_count`). -/
def Polyline.vertex_count (pl : Polyline α) : Nat := pl.vertex_data.length

/-- Checked vertex access (`PolylineRef::get`), returning `none` when the
index is out of bounds. -/
def Polyline.get (pl : Polyline α) (index : Nat) : Option (PlineVertex α) :=
  pl.vertex_data.get? index

/-- Unchecked vertex access (`PolylineRef::at` / `Index<usize>`); the Rust
version panics out of bounds, here totalized with `vdefault`. -/
def Polyline.atD (pl : Polyline α) (index : Nat) : PlineVertex α :=
  pl.vertex_data.getD index vdefault

/-- The width of the Rust `usize` type on the targeted 64-bit platforms. -/
def usizeSize : Nat := 2 ^ 64

/-- Wrapping `usize` decrement, the release-mode semantics of `n - 1` on a
Rust `usize` (two's complement wrap on underflow). -/
def usizeSub1 (n : Nat) : Nat := (n + (usizeSize - 1)) % usizeSize

/-- Last vertex (`PolylineRef::last`): `self.get(self.vertex_count() - 1)`
with `usize` subtraction semantics. -/
def Polyline.lastV (pl : Polyline α) : Option (PlineVertex α) :=
  pl.get (usizeSub1 pl.vertex_count)

/-- Segment count (`PolylineRef::segment_count`): 0 if fewer than 2 vertexes,
the vertex count if closed, one less if open. -/
def Polyline.segment_count (pl : Polyline α) : Nat :=
  let vc := pl.vertex_count
  if vc < 2 then 0
  else if pl.is_closed then vc
  else vc - 1

/-- Next wrapping vertex index (`PolylineRef::next_wrapping_index`). -/
def Polyline.next_wrapping_index (pl : Polyline α) (i : Nat) : Nat :=
  let next := i + 1
  if pl.vertex_count ≤ next then 0 else next

/-- Previous wrapping vertex index (`PolylineRef::prev_wrapping_index`). -/
def Polyline.prev_wrapping_index (pl : Polyline α) (i : Nat) : Nat :=
  if i = 0 then pl.vertex_count - 1 else i - 1

/-- Forward wrapping index (`PolylineRef::fwd_wrapping_index`): add the offset
and subtract the vertex count on single wrap. -/
def Polyline.fwd_wrapping_index (pl : Polyline α) (start_index offset : Nat) : Nat :=
  let sum := start_index + offset
  if sum < pl.vertex_count then sum else sum - pl.vertex_count

/-- Forward wrapping distance between two vertex indexes
(`PolylineRef::fwd_wrapping_dist`). -/
def Polyline.fwd_wrapping_dist (pl : Polyline α) (start_index end_index : Nat) : Nat :=
  if start_index ≤ end_index then end_index - start_index
  else pl.vertex_count - start_index + end_index

/-- Segment iterator (`PlineSegIterator` in `pline.rs`): the length-2 windows
of the vertex buffer, followed by the wrap pair `(last, first)` for a closed
polyline with at least 2 vertexes. -/
def Polyline.seg_pairs (pl : Polyline α) : List (PlineVertex α × PlineVertex α) :=
  let ws := pl.vertex_data.zip pl.vertex_data.tail
  if pl.is_closed ∧ 2 ≤ pl.vertex_data.length then
    ws ++ [(pl.atD (pl.vertex_count - 1), pl.atD 0)]
  else ws

/-- One step of `PlineSegIndexIterator::next` unrolled into a list: with
`remaining` iterations left the iterator emits `(pos, 0)` when the decremented
count hits zero on a closed polyline, else `(pos, pos + 1)`. -/
def segIndexIterAux (pos : Nat) : Nat → Bool → List (Nat × Nat)
  | 0, _ => []
  | r + 1, is_closed =>
    if r = 0 ∧ is_closed then [(pos, 0)]
    else (pos, pos + 1) :: segIndexIterAux (pos + 1) r is_closed

/-- Segment positional index iterator
(`PolylineRef::iter_segment_indexes` via `PlineSegIndexIterator::new`): starts
at position 0 with `segment_count` iterations remaining. -/
def Polyline.seg_index_pairs (pl : Polyline α) : List (Nat × Nat) :=
  segIndexIterAux 0 pl.segment_count pl.is_closed

/-- Fuzzy polyline comparison (`PolylineRef::fuzzy_eq_eps`): equal vertex
counts and pointwise fuzzy-equal vertexes. -/
def Polyline.fuzzy_eq_eps (pl other : Polyline α) (eps : α) : Prop :=
  pl.vertex_count = other.vertex_count ∧
    ∀ p ∈ pl.vertex_data.zip other.vertex_data, PlineVertex.fuzzy_eq_eps p.1 p.2 eps

instance (pl other : Polyline α) (eps : α) : Decidable (pl.fuzzy_eq_eps other eps) :=
  inferInstanceAs (Decidable (_ ∧ _))

/-- Bulge shifting pass of `invert_direction`: after the vertex order has been
reversed, the loop `for i in 1..vc { s[i-1].bulge = -s[i].bulge }` gives every
vertex the negated bulge of its successor, and the final vertex receives
`last_bulge` (which the caller picks as `-first_bulge` for closed polylines
and as the unchanged own bulge for open ones). -/
def invertBulgesAux : List (PlineVertex α) → α → List (PlineVertex α)
  | [], _ => []
  | [v], last_bulge => [v.with_bulge last_bulge]
  | v :: w :: rest, last_bulge =>
    v.with_bulge (-w.bulge) :: invertBulgesAux (w :: rest) last_bulge

/-- Direction inversion (`PolylineRefMut::invert_direction_mut`, equivalently
`PolylineContiguousStorageMut::invert_direction`): no-op below 2 vertexes,
otherwise reverse the vertexes, shift the negated bulges down by one position,
and for a closed polyline give the final vertex the negated original bulge of
the (post-reversal) first vertex. -/
def Polyline.invert_direction (pl : Polyline α) : Polyline α :=
  if pl.vertex_data.length < 2 then pl
  else
    let s := pl.vertex_data.reverse
    let last_bulge : α :=
      if pl.is_closed then -(s.headD vdefault).bulge else (s.getLastD vdefault).bulge
    ⟨invertBulgesAux s last_bulge, pl.is_closed⟩

/-- Main loop of `PolylineRef::remove_repeat_pos`: walk the remaining
vertexes keeping the kept-so-far vertexes (in reverse) in `acc` together with
the position of the most recently kept vertex in `prev_pos`; a vertex whose
position is fuzzy-equal to `prev_pos` is dropped and its bulge is written onto
the last kept vertex (the Rust code lazily materializes the result polyline at
the first removal; here a removal counter plays that role). -/
def removeRepeatLoop (eps : α) :
    Vector2 α → List (PlineVertex α) → Nat → List (PlineVertex α) →
      List (PlineVertex α) × Nat
  | _, acc, removed, [] => (acc.reverse, removed)
  | prev_pos, acc, removed, v :: rest =>
    if Vector2.fuzzy_eq_eps v.pos prev_pos eps then
      match acc with
      | [] => removeRepeatLoop eps prev_pos [] (removed + 1) rest
      | a :: tl => removeRepeatLoop eps prev_pos (a.with_bulge v.bulge :: tl) (removed + 1) rest
    else removeRepeatLoop eps v.pos (v :: acc) removed rest

/-- Repeat-position removal (`PolylineRef::remove_repeat_pos`): `none` below 2
vertexes; otherwise run the merging loop seeded with the first vertex, then
for a closed polyline whose (original) last vertex is fuzzy-equal in position
to the first vertex additionally drop the result's last vertex; `none` exactly
when the Rust code never materialized a result polyline (no removal event). -/
def Polyline.remove_repeat_pos (pl : Polyline α) (pos_equal_eps : α) :
    Option (Polyline α) :=
  match pl.vertex_data with
  | [] => none
  | [_] => none
  | v0 :: rest =>
    let r := removeRepeatLoop pos_equal_eps v0.pos [v0] 0 rest
    if pl.is_closed = true ∧
        Vector2.fuzzy_eq_eps ((pl.vertex_data.getLastD vdefault).pos) v0.pos pos_equal_eps then
      some ⟨r.1.dropLast, pl.is_closed⟩
    else if r.2 = 0 then none
    else some ⟨r.1, pl.is_closed⟩

/-- Modelled from the spec: single merging pass over the vertexes where each
vertex whose position is within `eps` of the current kept vertex is dropped
and the kept vertex takes the dropped (later) vertex's bulge. -/
def specMerge (eps : α) : PlineVertex α → List (PlineVertex α) → List (PlineVertex α)
  | v, [] => [v]
  | v, w :: rest =>
    if Vector2.fuzzy_eq_eps w.pos v.pos eps then specMerge eps (v.with_bulge w.bulge) rest
    else v :: specMerge eps w rest

/-- Modelled from the spec: `remove_repeat_pos(eps)` drops vertexes whose
position is within `eps` of their kept predecessor, the kept predecessor takes
the later vertex's bulge, for closed polylines the last vertex is additionally
dropped when its position coincides with the first vertex's position within
`eps`, and the function reports no change (`none`) exactly when no vertex was
removed. -/
def Polyline.spec_remove_repeat_pos (pl : Polyline α) (eps : α) : Option (Polyline α) :=
  match pl.vertex_data with
  | [] => none
  | [_] => none
  | v0 :: rest =>
    let merged := specMerge eps v0 rest
    let final :=
      if pl.is_closed = true ∧
          Vector2.fuzzy_eq_eps ((pl.vertex_data.getLastD vdefault).pos) v0.pos eps then
        merged.dropLast
      else merged
    if final.length = pl.vertex_data.length then none
    else some ⟨final, pl.is_closed⟩

/-- View data of a contiguous, possibly wrapping, possibly reversed sub-range
of a source polyline (`PlineViewData` in `pline_types.rs`). -/
structure PlineViewData (α : Type) where
  start_index : Nat
  end_index_offset : Nat
  updated_start : PlineVertex α
  updated_end_bulge : α
  end_point : Vector2 α
  inverted_direction : Bool
deriving DecidableEq

/-- Vertex materialization of a view (`get_view_vertex_impl` in
`pline_types.rs`); indexes past `end_index_offset + 1` are absent, the
non-inverted case materializes `updated_start`, the source vertexes advanced
from `start_index`, the final source vertex with `updated_end_bulge`, and
`end_point` with zero bulge; the inverted case mirrors this with negated
bulges and reversed ordering. -/
def getViewVertex (data : PlineViewData α) (source : Polyline α) (index : Nat) :
    Option (PlineVertex α) :=
  if data.end_index_offset + 1 < index then none
  else if data.inverted_direction then
    if index = 0 then
      some (PlineVertex.from_vector2 data.end_point (-data.updated_end_bulge))
    else if index < data.end_index_offset then
      let bulge_i := source.fwd_wrapping_index data.start_index (data.end_index_offset - index)
      let i := source.next_wrapping_index bulge_i
      some ((source.atD i).with_bulge (-(source.atD bulge_i).bulge))
    else if index = data.end_index_offset then
      let i := source.fwd_wrapping_index data.start_index (data.end_index_offset - index + 1)
      some ((source.atD i).with_bulge (-data.updated_start.bulge))
    else if index = data.end_index_offset + 1 then
      some (data.updated_start.with_bulge 0)
    else none
  else
    if index = 0 then some data.updated_start
    else if index < data.end_index_offset then
      some (source.atD (source.fwd_wrapping_index data.start_index index))
    else if index = data.end_index_offset then
      let i := source.fwd_wrapping_index data.start_index data.end_index_offset
      some ((source.atD i).with_bulge data.updated_end_bulge)
    else if index = data.end_index_offset + 1 then
      some (PlineVertex.from_vector2 data.end_point 0)
    else none

/-- Vertex count of a view (`impl PolylineRef for PlineView`):
`end_index_offset + 2`. -/
def viewVertexCount (data : PlineViewData α) : Nat := data.end_index_offset + 2

/-- Closed flag of a view (`impl PolylineRef for PlineView`): a view is always
treated as open. -/
def viewIsClosed (_data : PlineViewData α) : Bool := false

/-- Simple open polyline slice (`OpenPlineSlice` in `pline_types.rs`). -/
structure OpenPlineSlice (α : Type) where
  start_index : Nat
  end_index_offset : Nat
  updated_start : PlineVertex α
  updated_end_bulge : α
  end_point : Vector2 α
  inverted : Bool
deriving DecidableEq

/-- View data of a slice, as assembled by `PolylineSlice::visit_vertexes`. -/
def OpenPlineSlice.view_data (s : OpenPlineSlice α) : PlineViewData α :=
  ⟨s.start_index, s.end_index_offset, s.updated_start, s.updated_end_bulge,
    s.end_point, s.inverted⟩

/-- Slice construction on a single source segment
(`OpenPlineSlice::create_on_single_segment`): `none` when the updated start
position is fuzzy-equal to the end intersect (collapsed slice), otherwise the
slice with `end_index_offset = 0` and `updated_end_bulge` equal to the updated
start's bulge.  The `source` argument is used by the Rust code only inside a
debug assertion. -/
def create_on_single_segment (_source : Polyline α) (start_index : Nat)
    (updated_start : PlineVertex α) (end_intersect : Vector2 α) (pos_equal_eps : α) :
    Option (OpenPlineSlice α) :=
  if Vector2.fuzzy_eq_eps updated_start.pos end_intersect pos_equal_eps then none
  else
    some
      { start_index := start_index
        end_index_offset := 0
        updated_start := updated_start
        updated_end_bulge := updated_start.bulge
        end_point := end_intersect
        inverted := false }

/-! Real-valued geometry.  The Rust code is generic over its `Real` trait,
instantiated in practice at `f64`; the transcendental operations are embedded
at `ℝ`. -/

/-- Vector subtraction (`Vector2::sub`). -/
def Vector2.sub (a b : Vector2 α) : Vector2 α := ⟨a.x - b.x, a.y - b.y⟩

/-- Vector addition (`Vector2::add`). -/
def Vector2.add (a b : Vector2 α) : Vector2 α := ⟨a.x + b.x, a.y + b.y⟩

/-- Vector scaling (`Vector2::scale`). -/
def Vector2.scale (a : Vector2 α) (t : α) : Vector2 α := ⟨a.x * t, a.y * t⟩

/-- Modelled from the spec: dot product of 2D vectors. -/
def Vector2.dot (a b : Vector2 α) : α := a.x * b.x + a.y * b.y

/-- Modelled from the spec: squared length of a 2D vector. -/
def Vector2.length_squared (a : Vector2 α) : α := a.x * a.x + a.y * a.y

/-- Modelled from the spec: Euclidean length of a 2D vector. -/
noncomputable def Vector2.length (a : Vector2 ℝ) : ℝ :=
  Real.sqrt (a.x * a.x + a.y * a.y)

/-- Modelled from the spec: squared distance between two points
(`core::math::dist_squared`). -/
def dist_squared (a b : Vector2 α) : α :=
  (b.x - a.x) * (b.x - a.x) + (b.y - a.y) * (b.y - a.y)

/-- Modelled from the spec: the left test used by the winding-number rules
(`core::math::is_left`): `p` is strictly left of the directed line from `a` to
`b` when the cross product of `b - a` and `p - a` is positive. -/
def is_left (a b p : Vector2 α) : Prop :=
  0 < (b.x - a.x) * (p.y - a.y) - (b.y - a.y) * (p.x - a.x)

instance (a b p : Vector2 α) : Decidable (is_left a b p) :=
  inferInstanceAs (Decidable (0 < _))

/-- Modelled from the spec: left-or-on test (`core::math::is_left_or_equal`). -/
def is_left_or_equal (a b p : Vector2 α) : Prop :=
  0 ≤ (b.x - a.x) * (p.y - a.y) - (b.y - a.y) * (p.x - a.x)

instance (a b p : Vector2 α) : Decidable (is_left_or_equal a b p) :=
  inferInstanceAs (Decidable (0 ≤ _))

/-- Modelled from the spec: the arc's included angle from the bulge,
`Θ = 4·atan(bulge)` (`core::math::angle_from_bulge`). -/
noncomputable def angle_from_bulge (b : ℝ) : ℝ := 4 * Real.arctan b

/-- Modelled from the spec: two-argument arctangent provided by the scalar
abstraction (`atan2`); used by `core::math::angle`. -/
noncomputable def atan2 (y x : ℝ) : ℝ :=
  if 0 < x then Real.arctan (y / x)
  else if x < 0 then
    (if 0 ≤ y then Real.arctan (y / x) + Real.pi else Real.arctan (y / x) - Real.pi)
  else if 0 < y then Real.pi / 2
  else if y < 0 then -(Real.pi / 2)
  else 0

/-- Modelled from the spec: polar angle of point `p` as seen from center `c`
(`core::math::angle`). -/
noncomputable def angle (c p : Vector2 ℝ) : ℝ := atan2 (p.y - c.y) (p.x - c.x)

/-- Modelled from the spec: the point on the circle of radius `r` centered at
`c` at polar angle `a` (`core::math::point_on_circle`). -/
noncomputable def point_on_circle (r : ℝ) (c : Vector2 ℝ) (a : ℝ) : Vector2 ℝ :=
  ⟨c.x + r * Real.cos a, c.y + r * Real.sin a⟩

/-- Modelled from the spec: arc radius and center from a segment's two
vertexes (`seg_arc_radius_and_center`, spec section 4.1 with the design note's
`(1 − bulge²)/(4·bulge)` identity): radius `d·(b²+1)/(4b)` for `b = |bulge|`
and chord length `d`, center at the chord midpoint plus the perpendicular
offset `d·(1 − b²)/(4b)`, flipped for a clockwise (negative-bulge) arc. -/
noncomputable def seg_arc_radius_and_center (v1 v2 : PlineVertex ℝ) :
    ℝ × Vector2 ℝ :=
  let b := |v1.bulge|
  let v := Vector2.sub v2.pos v1.pos
  let d := v.length
  let r := d * (b * b + 1) / (4 * b)
  let m := d * (1 - b * b) / (4 * b)
  let offs : Vector2 ℝ :=
    if v1.bulge_is_neg then ⟨m * v.y / d, -(m * v.x / d)⟩
    else ⟨-(m * v.y / d), m * v.x / d⟩
  (r, ⟨v1.x + v.x / 2 + offs.x, v1.y + v.y / 2 + offs.y⟩)

/-- Modelled from the spec: segment length (`seg_length`, spec section 4.1):
chord length for a line, `|Θ|·r` for an arc with `Θ = 4·atan(bulge)` and `r`
the arc radius. -/
noncomputable def seg_length (v1 v2 : PlineVertex ℝ) : ℝ :=
  if v1.bulge_is_zero then (Vector2.sub v2.pos v1.pos).length
  else
    let b := |v1.bulge|
    let d := (Vector2.sub v2.pos v1.pos).length
    |4 * Real.arctan v1.bulge| * (d * (b * b + 1) / (4 * b))

/-- Total path length (`PolylineRef::path_length`): fold of the segment
lengths over the segment iterator. -/
noncomputable def Polyline.path_length (pl : Polyline ℝ) : ℝ :=
  pl.seg_pairs.foldl (fun acc s => acc + seg_length s.1 s.2) 0

/-- Per-segment contribution to the doubled signed area
(`PolylineRef::area`): the shoelace term, plus (for an arc segment) the
doubled circular-segment area, negated for clockwise arcs. -/
noncomputable def areaSegTerm (v1 v2 : PlineVertex ℝ) : ℝ :=
  let shoelace := v1.x * v2.y - v1.y * v2.x
  if v1.bulge_is_zero then shoelace
  else
    let b := |v1.bulge|
    let sweep_angle := angle_from_bulge b
    let triangle_base := (Vector2.sub v2.pos v1.pos).length
    let radius := triangle_base * ((b * b + 1) / (4 * b))
    let sagitta := b * triangle_base / 2
    let triangle_height := radius - sagitta
    let double_sector_area := sweep_angle * radius * radius
    let double_triangle_area := triangle_base * triangle_height
    let double_arc_area := double_sector_area - double_triangle_area
    if v1.bulge_is_neg then shoelace - double_arc_area
    else shoelace + double_arc_area

/-- Signed closed area (`PolylineRef::area`): zero for an open polyline,
otherwise half the folded doubled-area terms. -/
noncomputable def Polyline.area (pl : Polyline ℝ) : ℝ :=
  if pl.is_closed = false then 0
  else (pl.seg_pairs.foldl (fun acc s => acc + areaSegTerm s.1 s.2) 0) / 2

/-- Orientation of a polyline (`PlineOrientation` in `pline_types.rs`). -/
inductive PlineOrientation where
  | Open
  | Clockwise
  | CounterClockwise
deriving DecidableEq

/-- Orientation from the area sign (`PolylineRef::orientation`): `Open` for an
open polyline, `Clockwise` for negative area, `CounterClockwise` otherwise. -/
noncomputable def Polyline.orientation (pl : Polyline ℝ) : PlineOrientation :=
  if pl.is_closed = false then PlineOrientation.Open
  else if pl.area < 0 then PlineOrientation.Clockwise
  else PlineOrientation.CounterClockwise

/-- Line-segment winding contribution (`PolylineRef::process_line_winding`):
the upward/downward-crossing-with-left-test rule. -/
noncomputable def process_line_winding (v1 v2 : PlineVertex ℝ) (point : Vector2 ℝ) : Int :=
  if v1.y ≤ point.y then
    if point.y < v2.y ∧ is_left v1.pos v2.pos point then 1 else 0
  else
    if v2.y ≤ point.y ∧ ¬is_left v1.pos v2.pos point then -1 else 0

/-- Arc-segment winding contribution (`PolylineRef::process_arc_winding`):
chord crossing rules refined by whether the point lies inside the arc's
circle, with `is_left` vs `is_left_or_equal` chosen by arc direction. -/
noncomputable def process_arc_winding (v1 v2 : PlineVertex ℝ) (point : Vector2 ℝ) : Int :=
  let is_ccw := v1.bulge_is_pos
  let point_is_left :=
    if is_ccw then is_left v1.pos v2.pos point else is_left_or_equal v1.pos v2.pos point
  let dist_less :=
    let rc := seg_arc_radius_and_center v1 v2
    dist_squared rc.2 point < rc.1 * rc.1
  if v1.y ≤ point.y then
    if point.y < v2.y then
      if is_ccw then
        if point_is_left then 1 else if dist_less then 1 else 0
      else
        if point_is_left then (if ¬dist_less then 1 else 0) else 0
    else
      if is_ccw ∧ ¬point_is_left ∧ v2.x < point.x ∧ point.x < v1.x ∧ dist_less then 1
      else if ¬is_ccw ∧ point_is_left ∧ v1.x < point.x ∧ point.x < v2.x ∧ dist_less then -1
      else 0
  else if v2.y ≤ point.y then
    if is_ccw then
      if ¬point_is_left then (if ¬dist_less then -1 else 0) else 0
    else
      if point_is_left then (if dist_less then -1 else 0) else -1
  else
    if is_ccw ∧ ¬point_is_left ∧ v1.x < point.x ∧ point.x < v2.x ∧ dist_less then 1
    else if ¬is_ccw ∧ point_is_left ∧ v2.x < point.x ∧ point.x < v1.x ∧ dist_less then -1
    else 0

/-- Winding number of a point (`PolylineRef::winding_number`): zero for an
open polyline or fewer than 2 vertexes, otherwise the summed per-segment
contributions (line rule for zero-bulge segments, arc rule otherwise). -/
noncomputable def Polyline.winding_number (pl : Polyline ℝ) (point : Vector2 ℝ) : Int :=
  if pl.is_closed = false ∨ pl.vertex_data.length < 2 then 0
  else
    (pl.seg_pairs.map (fun s =>
      if s.1.bulge_is_zero then process_line_winding s.1 s.2 point
      else process_arc_winding s.1 s.2 point)).sum

/-- Result of `PolylineRef::closest_point` (`ClosestPointResult` in
`pline_types.rs`). -/
structure ClosestPointResult (α : Type) where
  seg_start_index : Nat
  seg_point : Vector2 α
  distance : α

/-- Closest point on a polyline (`PolylineRef::closest_point`): `none` when
empty; with a single vertex the seeded result (index 0, that vertex's
position) with the direct distance; otherwise scan the segments keeping the
least squared distance and take its square root at the end.  The external
`seg_closest_point` helper is not among the provided sources and is passed in
as `scp`; `max_value` stands for the Rust scalar's `max_value()` seed. -/
noncomputable def Polyline.closest_point
    (scp : PlineVertex ℝ → PlineVertex ℝ → Vector2 ℝ → Vector2 ℝ)
    (max_value : ℝ) (pl : Polyline ℝ) (point : Vector2 ℝ) :
    Option (ClosestPointResult ℝ) :=
  if pl.vertex_count = 0 then none
  else
    let result : ClosestPointResult ℝ := ⟨0, (pl.atD 0).pos, max_value⟩
    if pl.vertex_count = 1 then
      some { result with distance := (Vector2.sub result.seg_point point).length }
    else
      let step := fun (acc : ClosestPointResult ℝ × ℝ) (ij : Nat × Nat) =>
        let v1 := pl.atD ij.1
        let v2 := pl.atD ij.2
        let cp := scp v1 v2 point
        let dist2 := (Vector2.sub point cp).length_squared
        if dist2 < acc.2 then (⟨ij.1, cp, acc.1.distance⟩, dist2) else acc
      let r := pl.seg_index_pairs.foldl step (result, max_value)
      some { r.1 with distance := Real.sqrt r.2 }

/-- Vertexes materialized by a slice (`PolylineSlice::visit_vertexes` through
`PlineView::iter_vertexes`): the view vertexes at indexes
`0 .. end_index_offset + 1`. -/
def OpenPlineSlice.vertexes (s : OpenPlineSlice α) (source : Polyline α) :
    List (PlineVertex α) :=
  (List.range (viewVertexCount s.view_data)).map
    (fun i => (getViewVertex s.view_data source i).getD vdefault)

/-- Segment pairs visited by a slice (`PolylineSlice::visit_segs`):
consecutive pairs of the materialized vertexes. -/
def OpenPlineSlice.seg_pairs (s : OpenPlineSlice α) (source : Polyline α) :
    List (PlineVertex α × PlineVertex α) :=
  (s.vertexes source).zip (s.vertexes source).tail

/-- Segment walk of `PolylineSlice::find_point_at_path_length`: accumulate
segment lengths; when the target no longer exceeds the accumulated length plus
the current segment's length, interpolate the point on that segment (linear
interpolation on a line, angle interpolation on the arc's circle). -/
noncomputable def findPointLoop (target : ℝ) :
    Nat → ℝ → List (PlineVertex ℝ × PlineVertex ℝ) → Except ℝ (Nat × Vector2 ℝ)
  | _, acc_length, [] => Except.error acc_length
  | seg_index, acc_length, (v1, v2) :: rest =>
    let seg_len := seg_length v1 v2
    let sum_len := acc_length + seg_len
    if sum_len < target then findPointLoop target (seg_index + 1) sum_len rest
    else
      let t := (target - acc_length) / seg_len
      if v1.bulge_is_zero then
        Except.ok (seg_index, Vector2.add v1.pos ((Vector2.sub v2.pos v1.pos).scale t))
      else
        let rc := seg_arc_radius_and_center v1 v2
        let start_angle := angle rc.2 v1.pos
        let total_sweep_angle := angle_from_bulge v1.bulge
        let target_angle := start_angle + total_sweep_angle * t
        Except.ok (seg_index, point_on_circle rc.1 rc.2 target_angle)

/-- Point at a path length along a slice
(`PolylineSlice::find_point_at_path_length`): for a negative target the code
returns `Ok((0, source[0].pos()))` (the source polyline's vertex 0 position),
otherwise it walks the slice's segments, producing `Err(total_length)` when
the target exceeds the slice's total path length. -/
noncomputable def OpenPlineSlice.find_point_at_path_length (s : OpenPlineSlice ℝ)
    (source : Polyline ℝ) (target_path_length : ℝ) : Except ℝ (Nat × Vector2 ℝ) :=
  if target_path_length < 0 then
    Except.ok (0, (source.vertex_data.headD vdefault).pos)
  else findPointLoop target_path_length 0 0 (s.seg_pairs source)

/-! Theorems. -/

/-- C10: `last()` is total: on an empty polyline it returns absent rather than
failing (the wrapping `usize` index computation lands out of bounds and the
checked `get` absorbs it), and on a non-empty polyline (with fewer than
`2^64` vertexes) it returns the vertex at index `vertex_count - 1`, the last
vertex. -/
theorem last_is_total (pl : Polyline α) :
    (pl.vertex_data = [] → pl.lastV = none) ∧
    (pl.vertex_data ≠ [] → pl.vertex_count < usizeSize →
      pl.lastV = pl.get (pl.vertex_count - 1) ∧ pl.lastV = pl.vertex_data.getLast?) := by
  have hN : usizeSize = 18446744073709551616 := by norm_num [usizeSize]
  constructor
  · intro h
    simp [Polyline.lastV, Polyline.get, h]
  · intro h hlt
    have hvc : 1 ≤ pl.vertex_count := by
      have := List.length_pos.mpr h
      simpa [Polyline.vertex_count] using this
    have hidx : usizeSub1 pl.vertex_count = pl.vertex_count - 1 := by
      unfold usizeSub1
      rw [hN] at hlt ⊢
      omega
    refine ⟨by rw [Polyline.lastV, hidx], ?_⟩
    rw [Polyline.lastV, hidx, Polyline.get, List.getLast?_eq_get?]
    rfl

/-- Witness for `last_is_total` at a concrete one-vertex polyline. -/
theorem last_is_total_witness :
    (Polyline.mk [(⟨1, 2, 3⟩ : PlineVertex ℚ)] false).vertex_data ≠ [] ∧
    (Polyline.mk [(⟨1, 2, 3⟩ : PlineVertex ℚ)] false).vertex_count < usizeSize ∧
    (Polyline.mk [(⟨1, 2, 3⟩ : PlineVertex ℚ)] false).lastV = some ⟨1, 2, 3⟩ := by
  refine ⟨by simp, by decide, ?_⟩
  have h := (last_is_total (Polyline.mk [(⟨1, 2, 3⟩ : PlineVertex ℚ)] false)).2
    (by simp) (by decide)
  rw [h.2]
  rfl

/-- C8: `create_on_single_segment` returns absent exactly when the updated
start vertex's position is within `eps` of the end point (collapsed slice);
otherwise the returned slice has `end_index_offset = 0` and
`updated_end_bulge` equal to the updated start vertex's bulge. -/
theorem create_on_single_segment_spec (source : Polyline α) (start_index : Nat)
    (updated_start : PlineVertex α) (end_intersect : Vector2 α) (eps : α) :
    (create_on_single_segment source start_index updated_start end_intersect eps = none ↔
      Vector2.fuzzy_eq_eps updated_start.pos end_intersect eps) ∧
    ∀ s, create_on_single_segment source start_index updated_start end_intersect eps = some s →
      s.end_index_offset = 0 ∧ s.updated_end_bulge = updated_start.bulge := by
  unfold create_on_single_segment
  by_cases h : Vector2.fuzzy_eq_eps updated_start.pos end_intersect eps
  · simp [h]
  · refine ⟨by simp [h], ?_⟩
    intro s hs
    rw [if_neg h] at hs
    cases hs
    exact ⟨rfl, rfl⟩

/-- Witness for `create_on_single_segment_spec` at a concrete non-collapsed
slice. -/
theorem create_on_single_segment_spec_witness :
    create_on_single_segment (Polyline.mk [(⟨0, 0, 0⟩ : PlineVertex ℚ), ⟨2, 0, 0⟩] false) 0
        ⟨0, 0, 0⟩ ⟨1, 0⟩ (1 / 100000) =
      some ⟨0, 0, ⟨0, 0, 0⟩, 0, ⟨1, 0⟩, false⟩ ∧
    (OpenPlineSlice.mk 0 0 (⟨0, 0, 0⟩ : PlineVertex ℚ) 0 ⟨1, 0⟩ false).end_index_offset = 0 ∧
    (OpenPlineSlice.mk 0 0 (⟨0, 0, 0⟩ : PlineVertex ℚ) 0 ⟨1, 0⟩ false).updated_end_bulge =
      (PlineVertex.mk (0 : ℚ) 0 0).bulge := by
  have hs : create_on_single_segment
      (Polyline.mk [(⟨0, 0, 0⟩ : PlineVertex ℚ), ⟨2, 0, 0⟩] false) 0
      ⟨0, 0, 0⟩ ⟨1, 0⟩ (1 / 100000) = some ⟨0, 0, ⟨0, 0, 0⟩, 0, ⟨1, 0⟩, false⟩ := by
    norm_num [create_on_single_segment, Vector2.fuzzy_eq_eps, fuzzyEqEps, PlineVertex.pos,
      abs_lt]
  exact ⟨hs, (create_on_single_segment_spec
    (Polyline.mk [(⟨0, 0, 0⟩ : PlineVertex ℚ), ⟨2, 0, 0⟩] false)
    0 ⟨0, 0, 0⟩ ⟨1, 0⟩ (1 / 100000)).2 ⟨0, 0, ⟨0, 0, 0⟩, 0, ⟨1, 0⟩, false⟩ hs⟩

/-- C9: on a polyline with exactly one vertex, `closest_point` returns a
result (not absent) with `seg_start_index` 0, `seg_point` the single vertex's
position and `distance` the Euclidean distance from the query point to that
vertex, even though such a polyline has zero segments; this holds for any
external `seg_closest_point` helper and any seed value. -/
theorem closest_point_single_vertex
    (scp : PlineVertex ℝ → PlineVertex ℝ → Vector2 ℝ → Vector2 ℝ)
    (max_value : ℝ) (c : Bool) (v : PlineVertex ℝ) (p : Vector2 ℝ) :
    Polyline.closest_point scp max_value ⟨[v], c⟩ p =
      some ⟨0, v.pos,
        Real.sqrt ((v.x - p.x) * (v.x - p.x) + (v.y - p.y) * (v.y - p.y))⟩ ∧
    Polyline.segment_count (⟨[v], c⟩ : Polyline ℝ) = 0 := by
  constructor
  · unfold Polyline.closest_point
    simp [Polyline.vertex_count, Polyline.atD, Vector2.sub, Vector2.length, PlineVertex.pos]
  · simp [Polyline.segment_count, Polyline.vertex_count]

/-- C4: for a non-inverted view the vertex count is `end_index_offset + 2`,
the view is always open, and vertex materialization follows the forward rules:
index 0 gives `updated_start`; indexes strictly between 0 and
`end_index_offset` give the source vertex `index` forward-wrapping steps from
`start_index`; index `end_index_offset` (when distinct from 0) gives that
source vertex with `updated_end_bulge`; index `end_index_offset + 1` gives
`end_point` with bulge 0; larger indexes are absent. -/
theorem forward_view_vertexes (data : PlineViewData α) (source : Polyline α) (i : Nat)
    (hinv : data.inverted_direction = false) :
    viewVertexCount data = data.end_index_offset + 2 ∧
    viewIsClosed data = false ∧
    getViewVertex data source 0 = some data.updated_start ∧
    (1 ≤ i → i < data.end_index_offset →
      getViewVertex data source i =
        some (source.atD (source.fwd_wrapping_index data.start_index i))) ∧
    (i = data.end_index_offset → 1 ≤ i →
      getViewVertex data source i =
        some ((source.atD
          (source.fwd_wrapping_index data.start_index data.end_index_offset)).with_bulge
            data.updated_end_bulge)) ∧
    (i = data.end_index_offset + 1 →
      getViewVertex data source i = some (PlineVertex.from_vector2 data.end_point 0)) ∧
    (data.end_index_offset + 1 < i → getViewVertex data source i = none) := by
  refine ⟨rfl, rfl, ?_, ?_, ?_, ?_, ?_⟩
  · unfold getViewVertex
    rw [if_neg (by omega), hinv]
    simp
  · intro h1 h2
    unfold getViewVertex
    rw [if_neg (by omega), hinv]
    simp only [Bool.false_eq_true, if_false]
    rw [if_neg (by omega), if_pos h2]
  · intro he h1
    unfold getViewVertex
    rw [if_neg (by omega), hinv]
    simp only [Bool.false_eq_true, if_false]
    rw [if_neg (by omega), if_neg (by omega), if_pos he]
  · intro he
    unfold getViewVertex
    rw [if_neg (by omega), hinv]
    simp only [Bool.false_eq_true, if_false]
    rw [if_neg (by omega), if_neg (by omega), if_neg (by omega), if_pos he]
  · intro h
    unfold getViewVertex
    rw [if_pos h]

/-- Witness for `forward_view_vertexes` at a concrete view. -/
theorem forward_view_vertexes_witness :
    getViewVertex (⟨1, 2, ⟨5, 5, 1⟩, 7, ⟨9, 9⟩, false⟩ : PlineViewData ℚ)
        (Polyline.mk [⟨0, 0, 0⟩, ⟨1, 0, 0⟩, ⟨2, 0, 0⟩, ⟨3, 0, 0⟩] true) 3 =
      some (PlineVertex.from_vector2 ⟨9, 9⟩ 0) := by
  exact (forward_view_vertexes (⟨1, 2, ⟨5, 5, 1⟩, 7, ⟨9, 9⟩, false⟩ : PlineViewData ℚ)
    (Polyline.mk [⟨0, 0, 0⟩, ⟨1, 0, 0⟩, ⟨2, 0, 0⟩, ⟨3, 0, 0⟩] true) 3 rfl).2.2.2.2.2.1 rfl

/-- The closed-polyline index iterator ends with the wrap pair `(pos + r, 0)`. -/
theorem segIndexIterAux_closed_shape (r : Nat) : ∀ pos : Nat,
    ∃ l, segIndexIterAux pos (r + 1) true = l ++ [(pos + r, 0)] := by
  induction r with
  | zero =>
    intro pos
    exact ⟨[], rfl⟩
  | succ m ih =>
    intro pos
    obtain ⟨l, hl⟩ := ih (pos + 1)
    refine ⟨(pos, pos + 1) :: l, ?_⟩
    have harith : pos + 1 + m = pos + (m + 1) := by omega
    rw [segIndexIterAux, if_neg (by simp), hl, harith]
    simp [List.cons_append]

/-- The open-polyline index iterator ends with the pair
`(pos + r, pos + r + 1)`. -/
theorem segIndexIterAux_open_shape (r : Nat) : ∀ pos : Nat,
    ∃ l, segIndexIterAux pos (r + 1) false = l ++ [(pos + r, pos + r + 1)] := by
  induction r with
  | zero =>
    intro pos
    exact ⟨[], rfl⟩
  | succ m ih =>
    intro pos
    obtain ⟨l, hl⟩ := ih (pos + 1)
    refine ⟨(pos, pos + 1) :: l, ?_⟩
    have harith : pos + 1 + m = pos + (m + 1) := by omega
    rw [segIndexIterAux, if_neg (by simp), hl, harith]
    simp [List.cons_append]

/-- C6: the segment iterator yields exactly `segment_count` vertex pairs
(0 below 2 vertexes, `n` for a closed and `n - 1` for an open polyline); for
`n ≥ 2` the positional index iterator's last pair is `(n − 1, 0)` exactly when
the polyline is closed, and for a closed polyline the last materialized
segment is the wrap pair of the last and first vertex. -/
theorem segment_iteration (pl : Polyline α) :
    pl.seg_pairs.length = pl.segment_count ∧
    (2 ≤ pl.vertex_count →
      (pl.seg_index_pairs.getLast? = some (pl.vertex_count - 1, 0) ↔
        pl.is_closed = true)) ∧
    (2 ≤ pl.vertex_count → pl.is_closed = true →
      pl.seg_pairs.getLast? = some (pl.atD (pl.vertex_count - 1), pl.atD 0)) := by
  refine ⟨?_, ?_, ?_⟩
  · simp only [Polyline.seg_pairs, Polyline.segment_count, Polyline.vertex_count]
    by_cases hc : pl.is_closed = true
    · by_cases h2 : 2 ≤ pl.vertex_data.length
      · rw [if_pos ⟨hc, h2⟩, if_neg (by omega), if_pos hc]
        simp [List.length_zip] <;> omega
      · rw [if_neg (fun h => h2 h.2), if_pos (by omega)]
        simp [List.length_zip] <;> omega
    · rw [if_neg (fun h => hc h.1)]
      by_cases h2 : pl.vertex_data.length < 2
      · rw [if_pos h2]
        simp [List.length_zip] <;> omega
      · rw [if_neg h2, if_neg hc]
        simp [List.length_zip] <;> omega
  · intro h2
    simp only [Polyline.seg_index_pairs, Polyline.segment_count] at h2 ⊢
    by_cases hc : pl.is_closed = true
    · have hn : pl.vertex_count = (pl.vertex_count - 1) + 1 := by omega
      rw [if_neg (by omega), if_pos hc, hn]
      obtain ⟨l, hl⟩ := segIndexIterAux_closed_shape (pl.vertex_count - 1) (0 : Nat)
      rw [hc, hl, List.getLast?_concat]
      simp
    · have hcf : pl.is_closed = false := Bool.not_eq_true pl.is_closed ▸ hc
      have hn : pl.vertex_count - 1 = (pl.vertex_count - 2) + 1 := by omega
      rw [if_neg (by omega), if_neg hc, hn]
      obtain ⟨l, hl⟩ := segIndexIterAux_open_shape (pl.vertex_count - 2) (0 : Nat)
      rw [hcf, hl, List.getLast?_concat]
      simp only [Option.some.injEq, Prod.mk.injEq, Bool.false_eq_true, iff_false, not_and]
      intro _
      omega
  · intro h2 hc
    simp only [Polyline.seg_pairs]
    rw [if_pos ⟨hc, h2⟩, List.getLast?_concat]

/-- Witness for `segment_iteration` at a concrete closed two-vertex
polyline. -/
theorem segment_iteration_witness :
    (Polyline.mk [(⟨0, 0, 1⟩ : PlineVertex ℚ), ⟨2, 0, 1⟩] true).seg_index_pairs.getLast? =
      some (1, 0) := by
  exact ((segment_iteration (Polyline.mk [(⟨0, 0, 1⟩ : PlineVertex ℚ), ⟨2, 0, 1⟩] true)).2.1
    (by decide)).mpr rfl

/-- Head with default through the optional head. -/
theorem headD_eq_get? {β : Type} (l : List β) (d : β) : l.headD d = (l.get? 0).getD d := by
  cases l <;> rfl

/-- Element with default at an in-range index through the optional access. -/
theorem get?_eq_some_getD {β : Type} (l : List β) (j : Nat) (d : β) (h : j < l.length) :
    l.get? j = some (l.getD j d) := by
  rw [List.getD_eq_getD_get?]
  cases hx : l.get? j with
  | none =>
    rw [List.get?_eq_none] at hx
    omega
  | some v => rfl

/-- Length is preserved by the bulge shifting pass. -/
theorem invertBulgesAux_length (lb : α) :
    ∀ s : List (PlineVertex α), (invertBulgesAux s lb).length = s.length := by
  intro s
  induction s with
  | nil => rfl
  | cons v t ih =>
    cases t with
    | nil => rfl
    | cons w rest =>
      rw [invertBulgesAux]
      simp only [List.length_cons]
      rw [ih]
      simp

/-- Positions are preserved by the bulge shifting pass. -/
theorem invertBulgesAux_map_pos (lb : α) :
    ∀ s : List (PlineVertex α),
      (invertBulgesAux s lb).map PlineVertex.pos = s.map PlineVertex.pos := by
  intro s
  induction s with
  | nil => rfl
  | cons v t ih =>
    cases t with
    | nil => rfl
    | cons w rest =>
      rw [invertBulgesAux]
      simp only [List.map_cons]
      rw [ih]
      rfl

/-- Elementwise description of the bulge shifting pass: each vertex keeps its
position and receives the negated bulge of its successor, the final vertex
receiving the supplied `lb`. -/
theorem invertBulgesAux_get? (lb : α) :
    ∀ (s : List (PlineVertex α)) (i : Nat),
      (invertBulgesAux s lb).get? i =
        (s.get? i).map (fun v =>
          v.with_bulge (((s.get? (i + 1)).map (fun w => -w.bulge)).getD lb)) := by
  intro s
  induction s with
  | nil =>
    intro i
    simp [invertBulgesAux]
  | cons v t ih =>
    intro i
    cases t with
    | nil =>
      cases i with
      | zero => rfl
      | succ j =>
        simp [invertBulgesAux]
    | cons w rest =>
      cases i with
      | zero => rfl
      | succ j =>
        rw [invertBulgesAux]
        show (invertBulgesAux (w :: rest) lb).get? j = _
        rw [ih j]
        rfl

/-- Length is preserved by `invert_direction`. -/
theorem invert_direction_length (pl : Polyline α) :
    pl.invert_direction.vertex_data.length = pl.vertex_data.length := by
  unfold Polyline.invert_direction
  by_cases h : pl.vertex_data.length < 2
  · rw [if_pos h]
  · rw [if_neg h]
    simp [invertBulgesAux_length]

/-- The closed flag is preserved by `invert_direction`. -/
theorem invert_direction_is_closed (pl : Polyline α) :
    pl.invert_direction.is_closed = pl.is_closed := by
  unfold Polyline.invert_direction
  by_cases h : pl.vertex_data.length < 2
  · rw [if_pos h]
  · rw [if_neg h]

/-- Elementwise description of `invert_direction` on a polyline with at least
two vertexes: index `i` holds the original vertex at the mirrored index with
the negated bulge of the preceding original vertex, the final index taking the
wrap bulge for closed polylines and the untouched reversed bulge for open
ones. -/
theorem invert_direction_get? (pl : Polyline α) (h2 : 2 ≤ pl.vertex_data.length)
    (i : Nat) (hi : i < pl.vertex_data.length) :
    pl.invert_direction.vertex_data.get? i =
      some ((pl.vertex_data.getD (pl.vertex_data.length - 1 - i) vdefault).with_bulge
        (if i + 1 < pl.vertex_data.length then
          -(pl.vertex_data.getD (pl.vertex_data.length - 2 - i) vdefault).bulge
        else if pl.is_closed then
          -(pl.vertex_data.getD (pl.vertex_data.length - 1) vdefault).bulge
        else (pl.vertex_data.getD 0 vdefault).bulge)) := by
  have hlen : pl.vertex_data.reverse.length = pl.vertex_data.length := by simp
  unfold Polyline.invert_direction
  rw [if_neg (by omega)]
  show (invertBulgesAux pl.vertex_data.reverse _).get? i = _
  rw [invertBulgesAux_get? _ _ i]
  have hrev : pl.vertex_data.reverse.get? i =
      some (pl.vertex_data.getD (pl.vertex_data.length - 1 - i) vdefault) := by
    rw [List.get?_reverse (by omega)]
    exact get?_eq_some_getD _ _ _ (by omega)
  rw [hrev]
  by_cases hsucc : i + 1 < pl.vertex_data.length
  · have hrev2 : pl.vertex_data.reverse.get? (i + 1) =
        some (pl.vertex_data.getD (pl.vertex_data.length - 2 - i) vdefault) := by
      rw [List.get?_reverse (by omega)]
      have : pl.vertex_data.length - 1 - (i + 1) = pl.vertex_data.length - 2 - i := by omega
      rw [this]
      exact get?_eq_some_getD _ _ _ (by omega)
    rw [hrev2, if_pos hsucc]
    rfl
  · have hrev2 : pl.vertex_data.reverse.get? (i + 1) = none := by
      rw [List.get?_eq_none]
      omega
    rw [hrev2, if_neg hsucc]
    simp only [Option.map_none', Option.getD_none, Option.map_some', Option.some.injEq]
    by_cases hc : pl.is_closed = true
    · rw [if_pos hc, if_pos hc]
      have hh : pl.vertex_data.reverse.headD vdefault =
          pl.vertex_data.getD (pl.vertex_data.length - 1) vdefault := by
        rw [headD_eq_get?]
        rw [List.get?_reverse (by omega)]
        rw [get?_eq_some_getD _ _ vdefault (by omega)]
        rfl
      rw [hh]
    · rw [if_neg hc, if_neg hc]
      have hh : pl.vertex_data.reverse.getLastD vdefault =
          pl.vertex_data.getD 0 vdefault := by
        rw [List.getLastD_eq_getLast?, List.getLast?_eq_get?]
        rw [hlen, List.get?_reverse (by omega)]
        have : pl.vertex_data.length - 1 - (pl.vertex_data.length - 1) = 0 := by omega
        rw [this, get?_eq_some_getD _ _ vdefault (by omega)]
        rfl
      rw [hh]

/-- Replacing a bulge twice keeps only the outer replacement. -/
theorem with_bulge_with_bulge (v : PlineVertex α) (a b : α) :
    (v.with_bulge a).with_bulge b = v.with_bulge b := rfl

/-- Replacing a bulge by itself is the identity. -/
theorem with_bulge_self (v : PlineVertex α) : v.with_bulge v.bulge = v := rfl

/-- Positions after `invert_direction` are the reversed original positions
(also true below 2 vertexes, where reversal of at most one element is the
identity). -/
theorem invert_direction_map_pos (pl : Polyline α) :
    pl.invert_direction.vertex_data.map PlineVertex.pos =
      (pl.vertex_data.map PlineVertex.pos).reverse := by
  unfold Polyline.invert_direction
  by_cases h : pl.vertex_data.length < 2
  · rw [if_pos h]
    cases hd : pl.vertex_data with
    | nil => rfl
    | cons v t =>
      cases t with
      | nil => rfl
      | cons w r =>
        rw [hd] at h
        simp only [List.length_cons] at h
        omega
  · rw [if_neg h]
    show List.map PlineVertex.pos (invertBulgesAux pl.vertex_data.reverse _) = _
    rw [invertBulgesAux_map_pos, List.map_reverse]

/-- C3 (amended): applying `invert_direction` twice restores the closed flag,
all vertex positions, and all bulges except possibly the final vertex's; for a
closed polyline the result equals the original polyline exactly. -/
theorem invert_direction_round_trip (pl : Polyline α) :
    (pl.is_closed = true → pl.invert_direction.invert_direction = pl) ∧
    pl.invert_direction.invert_direction.vertex_data.map PlineVertex.pos =
      pl.vertex_data.map PlineVertex.pos ∧
    (∀ i, i + 1 < pl.vertex_data.length →
      (pl.invert_direction.invert_direction.vertex_data.get? i).map PlineVertex.bulge =
        (pl.vertex_data.get? i).map PlineVertex.bulge) ∧
    pl.invert_direction.invert_direction.is_closed = pl.is_closed := by
  by_cases h2 : 2 ≤ pl.vertex_data.length
  case neg =>
    have hfix : pl.invert_direction = pl := by
      unfold Polyline.invert_direction
      rw [if_pos (by omega)]
    rw [hfix, hfix]
    exact ⟨fun _ => rfl, rfl, fun i _ => rfl, rfl⟩
  case pos =>
  have h1len : pl.invert_direction.vertex_data.length = pl.vertex_data.length :=
    invert_direction_length pl
  have h1c : pl.invert_direction.is_closed = pl.is_closed :=
    invert_direction_is_closed pl
  have h2len :
      pl.invert_direction.invert_direction.vertex_data.length = pl.vertex_data.length := by
    rw [invert_direction_length, h1len]
  have h2c : pl.invert_direction.invert_direction.is_closed = pl.is_closed := by
    rw [invert_direction_is_closed, h1c]
  have hmain1 : ∀ i, i + 1 < pl.vertex_data.length →
      pl.invert_direction.invert_direction.vertex_data.get? i =
        some (pl.vertex_data.getD i vdefault) := by
    intro i hi1
    have key := invert_direction_get? pl.invert_direction (by omega) i (by omega)
    rw [h1len, h1c] at key
    rw [if_pos hi1] at key
    have hB := invert_direction_get? pl h2
      (pl.vertex_data.length - 2 - i) (by omega)
    rw [if_pos (show pl.vertex_data.length - 2 - i + 1 < pl.vertex_data.length by omega)] at hB
    have eB1 : pl.vertex_data.length - 1 - (pl.vertex_data.length - 2 - i) = i + 1 := by
      omega
    have eB2 : pl.vertex_data.length - 2 - (pl.vertex_data.length - 2 - i) = i := by
      omega
    rw [eB1, eB2] at hB
    have hA := invert_direction_get? pl h2
      (pl.vertex_data.length - 1 - i) (by omega)
    have eA1 : pl.vertex_data.length - 1 - (pl.vertex_data.length - 1 - i) = i := by
      omega
    rw [eA1] at hA
    rw [List.getD_eq_getD_get?, List.getD_eq_getD_get?, hA, hB] at key
    simp only [Option.getD_some, with_bulge_with_bulge, PlineVertex.with_bulge,
      PlineVertex.bulge, neg_neg] at key
    rw [key]
  have hbulge : ∀ i, i + 1 < pl.vertex_data.length →
      (pl.invert_direction.invert_direction.vertex_data.get? i).map PlineVertex.bulge =
        (pl.vertex_data.get? i).map PlineVertex.bulge := by
    intro i hi1
    rw [hmain1 i hi1, get?_eq_some_getD pl.vertex_data i vdefault (by omega)]
  have hpos :
      pl.invert_direction.invert_direction.vertex_data.map PlineVertex.pos =
        pl.vertex_data.map PlineVertex.pos := by
    rw [invert_direction_map_pos, invert_direction_map_pos, List.reverse_reverse]
  refine ⟨?_, hpos, hbulge, h2c⟩
  intro hc
  have hlast :
      pl.invert_direction.invert_direction.vertex_data.get?
          (pl.vertex_data.length - 1) =
        some (pl.vertex_data.getD (pl.vertex_data.length - 1) vdefault) := by
    have key := invert_direction_get? pl.invert_direction (by omega)
      (pl.vertex_data.length - 1) (by omega)
    rw [h1len, h1c] at key
    rw [if_neg (by omega), if_pos hc] at key
    have hV0 := invert_direction_get? pl h2 0 (by omega)
    rw [if_pos (by omega)] at hV0
    have hVl := invert_direction_get? pl h2 (pl.vertex_data.length - 1) (by omega)
    rw [if_neg (by omega), if_pos hc] at hVl
    have e0 : pl.vertex_data.length - 1 - 0 = pl.vertex_data.length - 1 := by omega
    have el : pl.vertex_data.length - 1 - (pl.vertex_data.length - 1) = 0 := by omega
    rw [e0] at hV0
    rw [el] at hVl
    rw [List.getD_eq_getD_get?, List.getD_eq_getD_get?, el, hV0, hVl] at key
    simp only [Option.getD_some, with_bulge_with_bulge, PlineVertex.with_bulge,
      PlineVertex.bulge, neg_neg] at key
    rw [key]
  have hext : pl.invert_direction.invert_direction.vertex_data = pl.vertex_data := by
    apply List.ext_get?
    intro i
    by_cases hi : i < pl.vertex_data.length
    · by_cases hi1 : i + 1 < pl.vertex_data.length
      · rw [hmain1 i hi1, get?_eq_some_getD pl.vertex_data i vdefault (by omega)]
      · have he : i = pl.vertex_data.length - 1 := by omega
        rw [he, hlast, get?_eq_some_getD pl.vertex_data _ vdefault (by omega)]
    · have hn1 : pl.invert_direction.invert_direction.vertex_data.get? i = none := by
        rw [List.get?_eq_none]
        omega
      have hn2 : pl.vertex_data.get? i = none := by
        rw [List.get?_eq_none]
        omega
      rw [hn1, hn2]
  cases hpl : pl.invert_direction.invert_direction with
  | mk vd cl =>
    have hv := hext
    have hcl := h2c
    rw [hpl] at hv hcl
    cases hpl2 : pl with
    | mk vd2 cl2 =>
      rw [hpl2] at hv hcl
      simp only at hv hcl
      rw [hv, hcl]

/-- Counterexample to C3 as stated: on the open polyline
`[(0,0, bulge 0), (1,0, bulge 5)]` the double inversion zeroes the (ignored)
final bulge, so the result is not fuzzy-equal to the original in bulge
values at the default positional epsilon. -/
theorem invert_round_trip_counterexample :
    ¬ Polyline.fuzzy_eq_eps
      ((Polyline.mk [(⟨0, 0, 0⟩ : PlineVertex ℚ), ⟨1, 0, 5⟩]
        false).invert_direction.invert_direction)
      (Polyline.mk [(⟨0, 0, 0⟩ : PlineVertex ℚ), ⟨1, 0, 5⟩] false) fuzzyEpsilon := by
  have hinv :
      (Polyline.mk [(⟨0, 0, 0⟩ : PlineVertex ℚ), ⟨1, 0, 5⟩]
        false).invert_direction.invert_direction =
      Polyline.mk [(⟨0, 0, 0⟩ : PlineVertex ℚ), ⟨1, 0, 0⟩] false := by
    norm_num [Polyline.invert_direction, invertBulgesAux, PlineVertex.with_bulge]
  rw [hinv]
  intro h
  have hb := (h.2 (⟨1, 0, 0⟩, ⟨1, 0, 5⟩) (by simp)).2.2
  norm_num [fuzzyEqEps, fuzzyEpsilon, abs_lt] at hb

/-- Witness for `invert_direction_round_trip` at a concrete closed
polyline. -/
theorem invert_direction_round_trip_witness :
    (Polyline.mk [(⟨0, 0, 1⟩ : PlineVertex ℚ), ⟨2, 0, -3⟩]
      true).invert_direction.invert_direction =
    Polyline.mk [(⟨0, 0, 1⟩ : PlineVertex ℚ), ⟨2, 0, -3⟩] true :=
  (invert_direction_round_trip
    (Polyline.mk [(⟨0, 0, 1⟩ : PlineVertex ℚ), ⟨2, 0, -3⟩] true)).1 rfl

/-- The merging pass never grows the list beyond the input plus the seed
vertex. -/
theorem specMerge_length_le (eps : α) :
    ∀ (l : List (PlineVertex α)) (v : PlineVertex α),
      (specMerge eps v l).length ≤ l.length + 1 := by
  intro l
  induction l with
  | nil =>
    intro v
    simp [specMerge]
  | cons w t ih =>
    intro v
    rw [specMerge]
    by_cases h : Vector2.fuzzy_eq_eps w.pos v.pos eps
    · rw [if_pos h]
      have := ih (v.with_bulge w.bulge)
      simp only [List.length_cons]
      omega
    · rw [if_neg h]
      have := ih w
      simp only [List.length_cons]
      omega

/-- The Rust loop of `remove_repeat_pos` computes the clean merging pass: the
kept vertexes are the seeded accumulator (reversed) followed by the merge of
the remaining vertexes, and the removal counter advances by the number of
dropped vertexes. -/
theorem removeRepeatLoop_spec (eps : α) :
    ∀ (rest : List (PlineVertex α)) (v : PlineVertex α)
      (as : List (PlineVertex α)) (r : Nat),
      removeRepeatLoop eps v.pos (v :: as) r rest =
        (as.reverse ++ specMerge eps v rest,
          r + (rest.length + 1 - (specMerge eps v rest).length)) := by
  intro rest
  induction rest with
  | nil =>
    intro v as r
    simp [removeRepeatLoop, specMerge]
  | cons w t ih =>
    intro v as r
    rw [removeRepeatLoop]
    by_cases h : Vector2.fuzzy_eq_eps w.pos v.pos eps
    · rw [if_pos h, specMerge, if_pos h]
      have hstep := ih (v.with_bulge w.bulge) as (r + 1)
      simp only [PlineVertex.with_bulge, PlineVertex.pos] at hstep ⊢
      rw [hstep]
      have hb := specMerge_length_le eps t (v.with_bulge w.bulge)
      simp only [PlineVertex.with_bulge] at hb
      rw [Prod.mk.injEq]
      refine ⟨rfl, ?_⟩
      simp only [List.length_cons]
      omega
    · rw [if_neg h, specMerge, if_neg h]
      have hstep := ih w (v :: as) r
      rw [hstep]
      have hb := specMerge_length_le eps t w
      rw [Prod.mk.injEq]
      constructor
      · simp
      · simp only [List.length_cons]
        omega

/-- C7: `remove_repeat_pos` implements its specification: vertexes whose
position is within `eps` of their kept predecessor are dropped with the kept
predecessor taking the dropped (later) vertex's bulge, a closed polyline
additionally drops its last vertex when its position coincides with the first
vertex's position within `eps`, and the function returns absent exactly when
no vertex is removed. -/
theorem remove_repeat_pos_eq_spec (pl : Polyline α) (eps : α) :
    pl.remove_repeat_pos eps = pl.spec_remove_repeat_pos eps := by
  cases hd : pl.vertex_data with
  | nil =>
    simp only [Polyline.remove_repeat_pos, Polyline.spec_remove_repeat_pos, hd]
  | cons v0 rest =>
    cases rest with
    | nil =>
      simp only [Polyline.remove_repeat_pos, Polyline.spec_remove_repeat_pos, hd]
    | cons w t =>
      simp only [Polyline.remove_repeat_pos, Polyline.spec_remove_repeat_pos, hd]
      rw [removeRepeatLoop_spec eps (w :: t) v0 [] 0]
      simp only [List.nil_append, List.reverse_nil, Nat.zero_add]
      have hb := specMerge_length_le eps (w :: t) v0
      by_cases hw : pl.is_closed = true ∧
          Vector2.fuzzy_eq_eps (((v0 :: w :: t).getLastD vdefault).pos) v0.pos eps
      · rw [if_pos hw, if_pos hw]
        have hdrop : ((specMerge eps v0 (w :: t)).dropLast).length ≠
            (v0 :: w :: t).length := by
          rw [List.length_dropLast]
          simp only [List.length_cons] at hb ⊢
          omega
        rw [if_neg hdrop]
      · rw [if_neg hw, if_neg hw]
        by_cases hz : (specMerge eps v0 (w :: t)).length = (v0 :: w :: t).length
        · have hz0 : (w :: t).length + 1 - (specMerge eps v0 (w :: t)).length = 0 := by
            simp only [List.length_cons] at hz ⊢
            omega
          rw [if_pos hz0, if_pos hz]
        · have hz0 : (w :: t).length + 1 - (specMerge eps v0 (w :: t)).length ≠ 0 := by
            simp only [List.length_cons] at hz hb ⊢
            omega
          rw [if_neg hz0, if_neg hz]

/-- C2 (amended): for a closed polyline the area is negative exactly when the
orientation is `Clockwise` and non-negative exactly when it is
`CounterClockwise` (so a positive area implies `CounterClockwise`, but a
degenerate closed polyline with zero area is also reported
`CounterClockwise`); an open polyline has zero area and orientation `Open`. -/
theorem area_sign_orientation (pl : Polyline ℝ) :
    (pl.is_closed = false → pl.area = 0 ∧ pl.orientation = PlineOrientation.Open) ∧
    (pl.is_closed = true →
      (pl.area < 0 ↔ pl.orientation = PlineOrientation.Clockwise) ∧
      (0 ≤ pl.area ↔ pl.orientation = PlineOrientation.CounterClockwise) ∧
      (0 < pl.area → pl.orientation = PlineOrientation.CounterClockwise)) := by
  constructor
  · intro ho
    unfold Polyline.area Polyline.orientation
    rw [if_pos ho, if_pos ho]
    exact ⟨rfl, rfl⟩
  · intro hc
    unfold Polyline.orientation
    rw [if_neg (by rw [hc]; exact fun h => Bool.true_eq_false ▸ h)]
    rcases lt_or_ge pl.area 0 with hlt | hge
    · rw [if_pos hlt]
      refine ⟨⟨fun _ => rfl, fun _ => hlt⟩, ?_, ?_⟩
      · constructor
        · intro hge'
          exact absurd hlt (not_lt.mpr hge')
        · intro hcc
          exact absurd hcc (by simp)
      · intro hpos
        exact absurd hlt (not_lt.mpr (le_of_lt hpos))
    · rw [if_neg (not_lt.mpr hge)]
      refine ⟨⟨fun hlt => absurd hlt (not_lt.mpr hge), fun hcw => absurd hcw (by simp)⟩,
        ⟨fun _ => rfl, fun _ => hge⟩, fun _ => rfl⟩

/-- The degenerate closed two-vertex polyline along a line has zero area. -/
theorem degenerate_closed_area :
    (Polyline.mk [(⟨0, 0, 0⟩ : PlineVertex ℝ), ⟨1, 0, 0⟩] true).area = 0 := by
  have hseg : (Polyline.mk [(⟨0, 0, 0⟩ : PlineVertex ℝ), ⟨1, 0, 0⟩] true).seg_pairs =
      [(⟨0, 0, 0⟩, ⟨1, 0, 0⟩), (⟨1, 0, 0⟩, ⟨0, 0, 0⟩)] := by
    simp [Polyline.seg_pairs, Polyline.atD, Polyline.vertex_count]
  unfold Polyline.area
  rw [if_neg (by simp), hseg]
  have hz : (⟨0, 0, 0⟩ : PlineVertex ℝ).bulge_is_zero ∧
      (⟨1, 0, 0⟩ : PlineVertex ℝ).bulge_is_zero := by
    constructor <;> norm_num [PlineVertex.bulge_is_zero, fuzzyEpsilon]
  simp only [List.foldl]
  rw [areaSegTerm, if_pos hz.1, areaSegTerm, if_pos hz.2]
  norm_num

/-- Counterexample to C2 as stated: the degenerate closed polyline
`[(0,0,0), (1,0,0)]` has area exactly 0 yet orientation `CounterClockwise`, so
`area > 0` is not equivalent to `orientation = CounterClockwise`. -/
theorem area_sign_orientation_counterexample :
    ¬ (0 < (Polyline.mk [(⟨0, 0, 0⟩ : PlineVertex ℝ), ⟨1, 0, 0⟩] true).area ↔
      (Polyline.mk [(⟨0, 0, 0⟩ : PlineVertex ℝ), ⟨1, 0, 0⟩] true).orientation =
        PlineOrientation.CounterClockwise) := by
  intro h
  have hccw : (Polyline.mk [(⟨0, 0, 0⟩ : PlineVertex ℝ), ⟨1, 0, 0⟩] true).orientation =
      PlineOrientation.CounterClockwise := by
    unfold Polyline.orientation
    rw [if_neg (by simp), degenerate_closed_area, if_neg (by norm_num)]
  have := h.mpr hccw
  rw [degenerate_closed_area] at this
  exact absurd this (by norm_num)

/-- The closed unit right triangle has area one half. -/
theorem triangle_area :
    (Polyline.mk [(⟨0, 0, 0⟩ : PlineVertex ℝ), ⟨1, 0, 0⟩, ⟨0, 1, 0⟩] true).area = 1 / 2 := by
  have hseg :
      (Polyline.mk [(⟨0, 0, 0⟩ : PlineVertex ℝ), ⟨1, 0, 0⟩, ⟨0, 1, 0⟩] true).seg_pairs =
      [(⟨0, 0, 0⟩, ⟨1, 0, 0⟩), (⟨1, 0, 0⟩, ⟨0, 1, 0⟩), (⟨0, 1, 0⟩, ⟨0, 0, 0⟩)] := by
    simp [Polyline.seg_pairs, Polyline.atD, Polyline.vertex_count]
  unfold Polyline.area
  rw [if_neg (by simp), hseg]
  have hz : ∀ a b : ℝ, (⟨a, b, 0⟩ : PlineVertex ℝ).bulge_is_zero := by
    intro a b
    norm_num [PlineVertex.bulge_is_zero, fuzzyEpsilon]
  simp only [List.foldl]
  rw [areaSegTerm, if_pos (hz 0 0), areaSegTerm, if_pos (hz 1 0), areaSegTerm,
    if_pos (hz 0 1)]
  norm_num

/-- Witness for `area_sign_orientation` at a concrete counter-clockwise
triangle. -/
theorem area_sign_orientation_witness :
    (Polyline.mk [(⟨0, 0, 0⟩ : PlineVertex ℝ), ⟨1, 0, 0⟩, ⟨0, 1, 0⟩] true).orientation =
      PlineOrientation.CounterClockwise := by
  have h := ((area_sign_orientation
    (Polyline.mk [(⟨0, 0, 0⟩ : PlineVertex ℝ), ⟨1, 0, 0⟩, ⟨0, 1, 0⟩] true)).2 rfl).2.2
  exact h (by rw [triangle_area]; norm_num)

/-- Square root of four. -/
theorem sqrt_four : Real.sqrt 4 = 2 := by
  rw [show (4 : ℝ) = 2 ^ 2 by norm_num, Real.sqrt_sq (by norm_num : (0 : ℝ) ≤ 2)]

/-- The unit-circle polyline's vertexes have arc (non-zero, positive,
non-negative-free) bulges. -/
theorem circle_bulge_not_zero (a b : ℝ) : ¬ (⟨a, b, 1⟩ : PlineVertex ℝ).bulge_is_zero := by
  norm_num [PlineVertex.bulge_is_zero, fuzzyEpsilon, abs_one]

/-- Arc radius and center of the unit circle's second (wrap) segment. -/
theorem circle_arc_rc :
    seg_arc_radius_and_center (⟨2, 0, 1⟩ : PlineVertex ℝ) ⟨0, 0, 1⟩ =
      (1, ⟨1, 0⟩) := by
  simp only [seg_arc_radius_and_center, PlineVertex.bulge_is_neg, Vector2.sub,
    PlineVertex.pos, Vector2.length]
  rw [show ((0 : ℝ) - 2) * (0 - 2) + (0 - 0) * (0 - 0) = 4 by norm_num, sqrt_four, abs_one,
    if_neg (by norm_num)]
  norm_num

/-- First arc segment of the unit circle contributes doubled area `π`. -/
theorem circle_area_term_first :
    areaSegTerm (⟨0, 0, 1⟩ : PlineVertex ℝ) ⟨2, 0, 1⟩ = Real.pi := by
  simp only [areaSegTerm, angle_from_bulge, Vector2.sub, PlineVertex.pos, Vector2.length]
  rw [if_neg (circle_bulge_not_zero 0 0), abs_one,
    show ((2 : ℝ) - 0) * (2 - 0) + (0 - 0) * (0 - 0) = 4 by norm_num, sqrt_four,
    Real.arctan_one, if_neg (by norm_num [PlineVertex.bulge_is_neg])]
  ring

/-- Second (wrap) arc segment of the unit circle contributes doubled area
`π`. -/
theorem circle_area_term_second :
    areaSegTerm (⟨2, 0, 1⟩ : PlineVertex ℝ) ⟨0, 0, 1⟩ = Real.pi := by
  simp only [areaSegTerm, angle_from_bulge, Vector2.sub, PlineVertex.pos, Vector2.length]
  rw [if_neg (circle_bulge_not_zero 2 0), abs_one,
    show ((0 : ℝ) - 2) * (0 - 2) + (0 - 0) * (0 - 0) = 4 by norm_num, sqrt_four,
    Real.arctan_one, if_neg (by norm_num [PlineVertex.bulge_is_neg])]
  ring

/-- Each semicircular segment of the unit circle has length `π`. -/
theorem circle_seg_length_first :
    seg_length (⟨0, 0, 1⟩ : PlineVertex ℝ) ⟨2, 0, 1⟩ = Real.pi := by
  simp only [seg_length, Vector2.sub, PlineVertex.pos, Vector2.length]
  rw [if_neg (circle_bulge_not_zero 0 0), abs_one,
    show ((2 : ℝ) - 0) * (2 - 0) + (0 - 0) * (0 - 0) = 4 by norm_num, sqrt_four,
    Real.arctan_one, show (4 : ℝ) * (Real.pi / 4) = Real.pi by ring,
    abs_of_pos Real.pi_pos]
  ring

/-- The wrap semicircular segment of the unit circle has length `π`. -/
theorem circle_seg_length_second :
    seg_length (⟨2, 0, 1⟩ : PlineVertex ℝ) ⟨0, 0, 1⟩ = Real.pi := by
  simp only [seg_length, Vector2.sub, PlineVertex.pos, Vector2.length]
  rw [if_neg (circle_bulge_not_zero 2 0), abs_one,
    show ((0 : ℝ) - 2) * (0 - 2) + (0 - 0) * (0 - 0) = 4 by norm_num, sqrt_four,
    Real.arctan_one, show (4 : ℝ) * (Real.pi / 4) = Real.pi by ring,
    abs_of_pos Real.pi_pos]
  ring

/-- Arc winding contribution of the first circle segment at `(1,0)` is 0. -/
theorem circle_arc_winding_first_inside :
    process_arc_winding (⟨0, 0, 1⟩ : PlineVertex ℝ) ⟨2, 0, 1⟩ ⟨1, 0⟩ = 0 := by
  simp only [process_arc_winding, PlineVertex.bulge_is_pos, is_left, is_left_or_equal,
    PlineVertex.pos, dist_squared]
  rw [if_pos (by norm_num : ((⟨0, 0, 1⟩ : PlineVertex ℝ)).y ≤ (⟨1, 0⟩ : Vector2 ℝ).y),
    if_neg (by norm_num : ¬ ((⟨1, 0⟩ : Vector2 ℝ).y < ((⟨2, 0, 1⟩ : PlineVertex ℝ)).y))]
  rw [if_neg (fun h => by have := h.2.2.1; norm_num at this),
    if_neg (fun h => h.1 (by norm_num))]

/-- Arc winding contribution of the wrap circle segment at `(1,0)` is 1. -/
theorem circle_arc_winding_second_inside :
    process_arc_winding (⟨2, 0, 1⟩ : PlineVertex ℝ) ⟨0, 0, 1⟩ ⟨1, 0⟩ = 1 := by
  simp only [process_arc_winding, PlineVertex.bulge_is_pos, is_left, is_left_or_equal,
    PlineVertex.pos, circle_arc_rc, dist_squared]
  rw [if_pos (by norm_num : ((⟨2, 0, 1⟩ : PlineVertex ℝ)).y ≤ (⟨1, 0⟩ : Vector2 ℝ).y),
    if_neg (by norm_num : ¬ ((⟨1, 0⟩ : Vector2 ℝ).y < ((⟨0, 0, 1⟩ : PlineVertex ℝ)).y))]
  rw [if_pos]
  refine ⟨by norm_num, ?_, by norm_num, by norm_num, by norm_num⟩
  rw [if_pos (by norm_num)]
  norm_num

/-- Arc winding contribution of the first circle segment at `(3,0)` is 0. -/
theorem circle_arc_winding_first_outside :
    process_arc_winding (⟨0, 0, 1⟩ : PlineVertex ℝ) ⟨2, 0, 1⟩ ⟨3, 0⟩ = 0 := by
  simp only [process_arc_winding, PlineVertex.bulge_is_pos, is_left, is_left_or_equal,
    PlineVertex.pos, dist_squared]
  rw [if_pos (by norm_num : ((⟨0, 0, 1⟩ : PlineVertex ℝ)).y ≤ (⟨3, 0⟩ : Vector2 ℝ).y),
    if_neg (by norm_num : ¬ ((⟨3, 0⟩ : Vector2 ℝ).y < ((⟨2, 0, 1⟩ : PlineVertex ℝ)).y))]
  rw [if_neg (fun h => by have := h.2.2.2.1; norm_num at this),
    if_neg (fun h => h.1 (by norm_num))]

/-- Arc winding contribution of the wrap circle segment at `(3,0)` is 0. -/
theorem circle_arc_winding_second_outside :
    process_arc_winding (⟨2, 0, 1⟩ : PlineVertex ℝ) ⟨0, 0, 1⟩ ⟨3, 0⟩ = 0 := by
  simp only [process_arc_winding, PlineVertex.bulge_is_pos, is_left, is_left_or_equal,
    PlineVertex.pos, dist_squared]
  rw [if_pos (by norm_num : ((⟨2, 0, 1⟩ : PlineVertex ℝ)).y ≤ (⟨3, 0⟩ : Vector2 ℝ).y),
    if_neg (by norm_num : ¬ ((⟨3, 0⟩ : Vector2 ℝ).y < ((⟨0, 0, 1⟩ : PlineVertex ℝ)).y))]
  rw [if_neg (fun h => by have := h.2.2.2.1; norm_num at this),
    if_neg (fun h => h.1 (by norm_num))]

/-- The unit circle polyline's segment pairs. -/
theorem circle_seg_pairs :
    (Polyline.mk [(⟨0, 0, 1⟩ : PlineVertex ℝ), ⟨2, 0, 1⟩] true).seg_pairs =
      [(⟨0, 0, 1⟩, ⟨2, 0, 1⟩), (⟨2, 0, 1⟩, ⟨0, 0, 1⟩)] := by
  simp [Polyline.seg_pairs, Polyline.atD, Polyline.vertex_count]

/-- C1: the closed polyline `[(0,0, bulge 1), (2,0, bulge 1)]` is the unit
circle centered at `(1,0)`: its area is exactly `π`, its path length exactly
`2π`, its winding number at the interior point `(1,0)` is 1 and at the
exterior point `(3,0)` is 0 (exact equalities, hence within any fuzzy
tolerance). -/
theorem circle_spec :
    (Polyline.mk [(⟨0, 0, 1⟩ : PlineVertex ℝ), ⟨2, 0, 1⟩] true).area = Real.pi ∧
    (Polyline.mk [(⟨0, 0, 1⟩ : PlineVertex ℝ), ⟨2, 0, 1⟩] true).path_length =
      2 * Real.pi ∧
    (Polyline.mk [(⟨0, 0, 1⟩ : PlineVertex ℝ), ⟨2, 0, 1⟩] true).winding_number ⟨1, 0⟩ = 1 ∧
    (Polyline.mk [(⟨0, 0, 1⟩ : PlineVertex ℝ), ⟨2, 0, 1⟩] true).winding_number ⟨3, 0⟩ =
      0 := by
  refine ⟨?_, ?_, ?_, ?_⟩
  · unfold Polyline.area
    rw [if_neg (by simp), circle_seg_pairs]
    simp only [List.foldl]
    rw [circle_area_term_first, circle_area_term_second]
    ring
  · unfold Polyline.path_length
    rw [circle_seg_pairs]
    simp only [List.foldl]
    rw [circle_seg_length_first, circle_seg_length_second]
    ring
  · unfold Polyline.winding_number
    rw [if_neg (by simp), circle_seg_pairs]
    simp only [List.map]
    rw [if_neg (circle_bulge_not_zero 0 0), if_neg (circle_bulge_not_zero 2 0),
      circle_arc_winding_first_inside, circle_arc_winding_second_inside]
    decide
  · unfold Polyline.winding_number
    rw [if_neg (by simp), circle_seg_pairs]
    simp only [List.map]
    rw [if_neg (circle_bulge_not_zero 0 0), if_neg (circle_bulge_not_zero 2 0),
      circle_arc_winding_first_outside, circle_arc_winding_second_outside]
    decide

/-- C5 (failing input): on the slice of the single segment from `(0,0)` to
`(1,0)` that starts at the trimmed vertex `(1/2, 0)`, a negative target path
length makes `find_point_at_path_length` return the SOURCE polyline's vertex 0
position `(0,0)` — not the slice's first vertex position `(1/2, 0)` as the
documentation and specification state. -/
theorem find_point_negative_target_bug :
    OpenPlineSlice.find_point_at_path_length
        (⟨0, 0, ⟨1 / 2, 0, 0⟩, 0, ⟨1, 0⟩, false⟩ : OpenPlineSlice ℝ)
        (Polyline.mk [⟨0, 0, 0⟩, ⟨1, 0, 0⟩] false) (-1) =
      Except.ok (0, ⟨0, 0⟩) ∧
    getViewVertex
        (OpenPlineSlice.view_data (⟨0, 0, ⟨1 / 2, 0, 0⟩, 0, ⟨1, 0⟩, false⟩ :
          OpenPlineSlice ℝ))
        (Polyline.mk [⟨0, 0, 0⟩, ⟨1, 0, 0⟩] false) 0 = some ⟨1 / 2, 0, 0⟩ ∧
    (⟨0, 0⟩ : Vector2 ℝ) ≠ ⟨1 / 2, 0⟩ := by
  refine ⟨?_, ?_, ?_⟩
  · unfold OpenPlineSlice.find_point_at_path_length
    rw [if_pos (by norm_num : (-1 : ℝ) < 0)]
    rfl
  · rfl
  · intro h
    have hx := congrArg Vector2.x h
    norm_num at hx

end CavalierContours
